import Mathlib

/-!
# Verification of the split-operator Schrödinger integrator (`amoniaco.py`)

Shallow embedding of the ammonia-inversion simulation: the piecewise
double-well potential `V`, the discrete Fourier transform pair used by
`np.fft.fft` / `np.fft.ifft`, the kinetic propagator `Top`, the potential
propagator `Vop`, the state initializer `init`, the spatial grid
`x = np.linspace(-L/2, L/2, Nx)` and the split-step driver `runsplit`.
Machine floating point is idealized as exact real/complex arithmetic.
-/

open Complex Finset
open scoped Real ComplexConjugate

namespace Amoniaco

/-! ## Potential model (`V`)

The source builds the result array by three successive masked assignments
(`V_array[np.abs(x) > a] = V_out`, then the wells mask, then the barrier
mask); the embedding applies the same rule pointwise, mirroring the mask
order with a chain of conditional updates starting from the uninitialized
`np.empty_like` cell (placeholder `0`, never exposed since the masks are
exhaustive).  The `t` and `type` arguments are accepted and ignored, as in
the source. -/
noncomputable def V (x : ℝ) (t : ℝ) (V0 : ℝ) (type : ℕ) : ℝ :=
  let a : ℝ := 0.07
  let b : ℝ := 0.04
  let V_out : ℝ := 1e6
  let v0 : ℝ := 0
  let v1 : ℝ := if |x| > a then V_out else v0
  let v2 : ℝ := if |x| ≤ a ∧ |x| > b then 0 else v1
  let v3 : ℝ := if |x| ≤ b then V0 else v2
  v3

/-! ## Discrete Fourier transform (numpy convention)

`np.fft.fft` maps `a` to `A_k = Σ_j a_j exp(-2πi jk/n)`; `np.fft.ifft` is
its inverse with the `1/n` factor.  `np.fft.fftfreq(n, d)` returns
`[0, 1, …, ⌈n/2⌉-1, -⌊n/2⌋, …, -1] / (d*n)`. -/

noncomputable def fft {n : ℕ} (ψ : Fin n → ℂ) (k : Fin n) : ℂ :=
  ∑ j : Fin n, ψ j * Complex.exp (-(2 * (π : ℂ) * I * (j : ℕ) * (k : ℕ)) / n)

noncomputable def ifft {n : ℕ} (φ : Fin n → ℂ) (j : Fin n) : ℂ :=
  (∑ k : Fin n, φ k * Complex.exp ((2 * (π : ℂ) * I * (j : ℕ) * (k : ℕ)) / n)) / n

noncomputable def fftfreq (n : ℕ) (d : ℝ) (i : Fin n) : ℝ :=
  (if 2 * (i : ℕ) < n then ((i : ℕ) : ℝ) else ((i : ℕ) : ℝ) - n) / (d * n)

/-- `k_vec = np.fft.fftfreq(Nx, dx) * 2 * np.pi` (computed inside `Top`). -/
noncomputable def kvec (n : ℕ) (d : ℝ) (i : Fin n) : ℝ :=
  fftfreq n d i * (2 * π)

/-- Physical constant `hbar = 1.0` from the run configuration. -/
noncomputable def hbar : ℝ := 1.0

/-- Physical constant `m = 1.0` (particle mass) from the run configuration. -/
noncomputable def m : ℝ := 1.0

/-! ## Key DFT facts: root-of-unity sums, inversion, Plancherel -/

/-- Geometric sum of the `n`-th roots of unity: `Σ_j exp(2πi m j/n)` is `n`
when `n ∣ m` and `0` otherwise. -/
theorem expSum (n : ℕ) (hn : 0 < n) (mz : ℤ) :
    ∑ j : Fin n, Complex.exp (2 * (π : ℂ) * I * mz * (j : ℕ) / n) =
      if (n : ℤ) ∣ mz then (n : ℂ) else 0 := by
  have hn' : (n : ℂ) ≠ 0 := Nat.cast_ne_zero.mpr hn.ne'
  set ω : ℂ := Complex.exp (2 * (π : ℂ) * I * mz / n) with hω
  have hpow : ∀ j : Fin n,
      Complex.exp (2 * (π : ℂ) * I * mz * (j : ℕ) / n) = ω ^ (j : ℕ) := by
    intro j
    rw [hω, ← Complex.exp_nat_mul]
    congr 1
    ring
  simp only [hpow]
  rw [Fin.sum_univ_eq_sum_range (fun i => ω ^ i) n]
  by_cases hdvd : (n : ℤ) ∣ mz
  · have hd : (n : ℤ) ∣ mz := hdvd
    obtain ⟨c, hc⟩ := hdvd
    have hω1 : ω = 1 := by
      rw [hω, hc]
      refine Complex.exp_eq_one_iff.mpr ⟨c, ?_⟩
      push_cast
      field_simp
      ring
    rw [hω1, if_pos hd]
    simp
  · have hω1 : ω ≠ 1 := by
      intro h
      rw [hω, Complex.exp_eq_one_iff] at h
      obtain ⟨k, hk⟩ := h
      have h2πI : (2 : ℂ) * π * I ≠ 0 := by
        simp [Real.pi_ne_zero, Complex.I_ne_zero, Complex.ofReal_ne_zero]
      have hmz : (mz : ℂ) = k * n := by
        have h1 : 2 * (π : ℂ) * I * mz = k * (2 * π * I) * n := by
          field_simp at hk
          linear_combination hk
        have h2 : 2 * (π : ℂ) * I * mz = 2 * (π : ℂ) * I * (k * n) := by
          linear_combination h1
        exact mul_left_cancel₀ h2πI h2
      have hmzZ : mz = k * n := by exact_mod_cast hmz
      exact hdvd ⟨k, by rw [hmzZ]; ring⟩
    have hωn : ω ^ n = 1 := by
      rw [hω, ← Complex.exp_nat_mul]
      refine Complex.exp_eq_one_iff.mpr ⟨mz, ?_⟩
      field_simp
      ring
    rw [geom_sum_eq hω1, hωn]
    simp [hdvd]

/-- For indices `j l < n`, `n` divides `j - l` iff `j = l`. -/
theorem dvd_sub_iff_eq {n : ℕ} (j l : Fin n) :
    (n : ℤ) ∣ ((j : ℕ) : ℤ) - ((l : ℕ) : ℤ) ↔ l = j := by
  constructor
  · intro h
    have hj := j.isLt
    have hl := l.isLt
    have := Int.eq_zero_of_dvd_of_natAbs_lt_natAbs h (by omega)
    have : (j : ℕ) = (l : ℕ) := by omega
    exact (Fin.ext this.symm)
  · rintro rfl
    simp

/-- `np.fft.ifft` inverts `np.fft.fft` (exact arithmetic). -/
theorem ifft_fft {n : ℕ} (ψ : Fin n → ℂ) : ifft (fft ψ) = ψ := by
  funext j
  have hn : 0 < n := j.pos
  have hn' : (n : ℂ) ≠ 0 := Nat.cast_ne_zero.mpr hn.ne'
  unfold ifft fft
  have key : ∀ k : Fin n,
      (∑ l : Fin n, ψ l * Complex.exp (-(2 * (π : ℂ) * I * (l : ℕ) * (k : ℕ)) / n)) *
        Complex.exp ((2 * (π : ℂ) * I * (j : ℕ) * (k : ℕ)) / n) =
      ∑ l : Fin n, ψ l *
        Complex.exp (2 * (π : ℂ) * I * ((((j : ℕ) : ℤ) - ((l : ℕ) : ℤ) : ℤ) : ℂ) * (k : ℕ) / n) := by
    intro k
    rw [Finset.sum_mul]
    refine Finset.sum_congr rfl fun l _ => ?_
    rw [mul_assoc, ← Complex.exp_add]
    congr 1
    push_cast
    ring
  simp only [key]
  rw [Finset.sum_comm]
  simp only [← Finset.mul_sum]
  have key2 : ∀ l : Fin n,
      ∑ k : Fin n,
        Complex.exp (2 * (π : ℂ) * I * ((((j : ℕ) : ℤ) - ((l : ℕ) : ℤ) : ℤ) : ℂ) * (k : ℕ) / n) =
      if l = j then (n : ℂ) else 0 := by
    intro l
    rw [expSum n hn (((j : ℕ) : ℤ) - ((l : ℕ) : ℤ))]
    simp only [dvd_sub_iff_eq]
  simp only [key2, mul_ite, mul_zero]
  rw [Finset.sum_ite_eq' Finset.univ j (fun l => ψ l * n)]
  simp only [Finset.mem_univ, if_true]
  field_simp

/-- `np.fft.fft` inverts `np.fft.ifft` (exact arithmetic). -/
theorem fft_ifft {n : ℕ} (φ : Fin n → ℂ) : fft (ifft φ) = φ := by
  funext k
  have hn : 0 < n := k.pos
  have hn' : (n : ℂ) ≠ 0 := Nat.cast_ne_zero.mpr hn.ne'
  unfold fft ifft
  simp only [div_mul_eq_mul_div]
  rw [← Finset.sum_div]
  have key : ∀ j : Fin n,
      (∑ l : Fin n, φ l * Complex.exp ((2 * (π : ℂ) * I * (j : ℕ) * (l : ℕ)) / n)) *
        Complex.exp (-(2 * (π : ℂ) * I * (j : ℕ) * (k : ℕ)) / n) =
      ∑ l : Fin n, φ l *
        Complex.exp (2 * (π : ℂ) * I * ((((l : ℕ) : ℤ) - ((k : ℕ) : ℤ) : ℤ) : ℂ) * (j : ℕ) / n) := by
    intro j
    rw [Finset.sum_mul]
    refine Finset.sum_congr rfl fun l _ => ?_
    rw [mul_assoc, ← Complex.exp_add]
    congr 1
    push_cast
    ring
  simp only [key]
  rw [Finset.sum_comm]
  simp only [← Finset.mul_sum]
  have key2 : ∀ l : Fin n,
      ∑ j : Fin n,
        Complex.exp (2 * (π : ℂ) * I * ((((l : ℕ) : ℤ) - ((k : ℕ) : ℤ) : ℤ) : ℂ) * (j : ℕ) / n) =
      if k = l then (n : ℂ) else 0 := by
    intro l
    rw [expSum n hn (((l : ℕ) : ℤ) - ((k : ℕ) : ℤ))]
    simp only [dvd_sub_iff_eq]
  simp only [key2, mul_ite, mul_zero]
  rw [Finset.sum_ite_eq Finset.univ k (fun l => φ l * n)]
  simp only [Finset.mem_univ, if_true]
  field_simp

/-- Plancherel identity for the DFT, complex form. -/
theorem sum_conj_fft {n : ℕ} (ψ : Fin n → ℂ) :
    ∑ k : Fin n, fft ψ k * conj (fft ψ k) = n * ∑ j : Fin n, ψ j * conj (ψ j) := by
  rcases Nat.eq_zero_or_pos n with h0 | hn
  · subst h0; simp
  have hconj : ∀ k : Fin n, conj (fft ψ k) =
      ∑ l : Fin n, conj (ψ l) * Complex.exp ((2 * (π : ℂ) * I * (l : ℕ) * (k : ℕ)) / n) := by
    intro k
    unfold fft
    rw [map_sum]
    refine Finset.sum_congr rfl fun l _ => ?_
    rw [map_mul, ← Complex.exp_conj]
    congr 1
    simp only [map_neg, map_div₀, map_mul, Complex.conj_I, Complex.conj_ofReal,
      Complex.conj_natCast, map_ofNat]
    ring
  have key : ∀ k : Fin n, fft ψ k * conj (fft ψ k) =
      ∑ j : Fin n, ∑ l : Fin n, ψ j * conj (ψ l) *
        Complex.exp (2 * (π : ℂ) * I * ((((l : ℕ) : ℤ) - ((j : ℕ) : ℤ) : ℤ) : ℂ) * (k : ℕ) / n) := by
    intro k
    rw [hconj]
    unfold fft
    rw [Finset.sum_mul_sum]
    refine Finset.sum_congr rfl fun j _ => Finset.sum_congr rfl fun l _ => ?_
    rw [mul_mul_mul_comm, ← Complex.exp_add]
    congr 1
    push_cast
    ring
  simp only [key]
  rw [Finset.sum_comm]
  have swap2 : ∀ j : Fin n,
      (∑ k : Fin n, ∑ l : Fin n, ψ j * conj (ψ l) *
        Complex.exp (2 * (π : ℂ) * I * ((((l : ℕ) : ℤ) - ((j : ℕ) : ℤ) : ℤ) : ℂ) * (k : ℕ) / n)) =
      ψ j * conj (ψ j) * n := by
    intro j
    rw [Finset.sum_comm]
    simp only [← Finset.mul_sum]
    have key2 : ∀ l : Fin n,
        ∑ k : Fin n,
          Complex.exp (2 * (π : ℂ) * I * ((((l : ℕ) : ℤ) - ((j : ℕ) : ℤ) : ℤ) : ℂ) * (k : ℕ) / n) =
        if j = l then (n : ℂ) else 0 := by
      intro l
      rw [expSum n hn (((l : ℕ) : ℤ) - ((j : ℕ) : ℤ))]
      simp only [dvd_sub_iff_eq]
    simp only [key2, mul_ite, mul_zero]
    rw [Finset.sum_ite_eq Finset.univ j (fun l => ψ j * conj (ψ l) * n)]
    simp
  simp only [swap2]
  rw [← Finset.sum_mul, mul_comm]

/-- Plancherel identity, real form: the DFT scales the sum of squared
magnitudes by `n`. -/
theorem fft_normSum {n : ℕ} (ψ : Fin n → ℂ) :
    ∑ k : Fin n, Complex.abs (fft ψ k) ^ 2 = n * ∑ j : Fin n, Complex.abs (ψ j) ^ 2 := by
  have h := sum_conj_fft ψ
  have cast1 : ∀ (g : Fin n → ℂ),
      ∑ i : Fin n, g i * conj (g i) = ((∑ i : Fin n, Complex.abs (g i) ^ 2 : ℝ) : ℂ) := by
    intro g
    rw [Complex.ofReal_sum]
    refine Finset.sum_congr rfl fun i _ => ?_
    rw [Complex.sq_abs, Complex.mul_conj]
  rw [cast1, cast1] at h
  exact_mod_cast h

/-! ## Propagators -/

/-- Kinetic propagator `Top(psi, dt)`: FFT, multiply each mode by
`exp(-1j*(hbar*k_vec**2*dt)/(2*m))`, inverse FFT.  The script reads the
grid size and spacing from globals `Nx, dx`; here they are the parameters
`n, d`. -/
noncomputable def Top {n : ℕ} (d : ℝ) (ψ : Fin n → ℂ) (dt : ℝ) : Fin n → ℂ :=
  ifft (fun k => fft ψ k *
    Complex.exp (-I * ((hbar : ℂ) * ((kvec n d k : ℝ) : ℂ) ^ 2 * (dt : ℂ)) / (2 * (m : ℂ))))

/-- Barrier height `V0 = 0.25` from the run configuration (read globally by
`Vop`). -/
noncomputable def V0 : ℝ := 0.25

/-- Potential propagator `Vop(psi, x, t, dt)`:
`psi *= exp(-1j * V(x, t + dt/2, V0, type=6) * dt / hbar)`. -/
noncomputable def Vop {n : ℕ} (ψ : Fin n → ℂ) (x : Fin n → ℝ) (t dt : ℝ) : Fin n → ℂ :=
  fun j => ψ j *
    Complex.exp (-I * ((V (x j) (t + dt / 2) V0 6 : ℝ) : ℂ) * (dt : ℂ) / (hbar : ℂ))

/-- Discrete norm `np.sum(np.abs(psi)**2) * dx`. -/
noncomputable def dnorm {n : ℕ} (ψ : Fin n → ℂ) (d : ℝ) : ℝ :=
  (∑ j : Fin n, Complex.abs (ψ j) ^ 2) * d

/-- The kinetic phase factor has unit modulus for every real duration. -/
theorem abs_topPhase {n : ℕ} (d dt : ℝ) (k : Fin n) :
    Complex.abs (Complex.exp
      (-I * ((hbar : ℂ) * ((kvec n d k : ℝ) : ℂ) ^ 2 * (dt : ℂ)) / (2 * (m : ℂ)))) = 1 := by
  have h : (-I * ((hbar : ℂ) * ((kvec n d k : ℝ) : ℂ) ^ 2 * (dt : ℂ)) / (2 * (m : ℂ))) =
      ((-(hbar * (kvec n d k) ^ 2 * dt) / (2 * m) : ℝ) : ℂ) * I := by
    push_cast
    ring
  rw [h, Complex.abs_exp_ofReal_mul_I]

/-- The potential phase factor has unit modulus (the potential is real). -/
theorem abs_vopPhase (v dt : ℝ) :
    Complex.abs (Complex.exp (-I * ((v : ℝ) : ℂ) * (dt : ℂ) / (hbar : ℂ))) = 1 := by
  have h : (-I * ((v : ℝ) : ℂ) * (dt : ℂ) / (hbar : ℂ)) =
      ((-(v * dt) / hbar : ℝ) : ℂ) * I := by
    push_cast
    ring
  rw [h, Complex.abs_exp_ofReal_mul_I]

/-- `Top` preserves the sum of squared magnitudes (unitarity of the DFT pair
combined with the unit-modulus momentum-space phase). -/
theorem top_sumSq {n : ℕ} (d : ℝ) (ψ : Fin n → ℂ) (dt : ℝ) :
    ∑ j : Fin n, Complex.abs (Top d ψ dt j) ^ 2 = ∑ j : Fin n, Complex.abs (ψ j) ^ 2 := by
  rcases Nat.eq_zero_or_pos n with h0 | hn
  · subst h0; simp
  have hn' : (n : ℝ) ≠ 0 := Nat.cast_ne_zero.mpr hn.ne'
  have hfft : fft (Top d ψ dt) = fun k => fft ψ k *
      Complex.exp (-I * ((hbar : ℂ) * ((kvec n d k : ℝ) : ℂ) ^ 2 * (dt : ℂ)) / (2 * (m : ℂ))) := by
    unfold Top
    rw [fft_ifft]
  have h1 := fft_normSum (Top d ψ dt)
  have h2 := fft_normSum ψ
  rw [hfft] at h1
  simp only [map_mul, abs_topPhase, mul_one] at h1
  rw [h2] at h1
  exact mul_left_cancel₀ hn' h1.symm

/-- `Top` preserves the discrete norm. -/
theorem top_dnorm {n : ℕ} (d : ℝ) (ψ : Fin n → ℂ) (dt d' : ℝ) :
    dnorm (Top d ψ dt) d' = dnorm ψ d' := by
  unfold dnorm
  rw [top_sumSq]

/-- `Vop` preserves the discrete norm (pointwise unit-modulus phase). -/
theorem vop_dnorm {n : ℕ} (ψ : Fin n → ℂ) (x : Fin n → ℝ) (t dt d' : ℝ) :
    dnorm (Vop ψ x t dt) d' = dnorm ψ d' := by
  unfold dnorm Vop
  congr 1
  refine Finset.sum_congr rfl fun j _ => ?_
  rw [map_mul, abs_vopPhase, mul_one]

/-- Zero-duration kinetic step is the identity. -/
theorem top_zero {n : ℕ} (d : ℝ) (ψ : Fin n → ℂ) : Top d ψ 0 = ψ := by
  unfold Top
  have h : (fun k : Fin n => fft ψ k *
      Complex.exp (-I * ((hbar : ℂ) * ((kvec n d k : ℝ) : ℂ) ^ 2 * ((0 : ℝ) : ℂ)) / (2 * (m : ℂ))))
      = fft ψ := by
    funext k
    simp
  rw [h, ifft_fft]

/-- Zero-duration potential step is the identity. -/
theorem vop_zero {n : ℕ} (ψ : Fin n → ℂ) (x : Fin n → ℝ) (t : ℝ) : Vop ψ x t 0 = ψ := by
  funext j
  unfold Vop
  simp

/-- Kinetic semigroup law: consecutive kinetic steps of durations `a` and
`b` compose to a single step of duration `a + b`. -/
theorem top_add {n : ℕ} (d : ℝ) (ψ : Fin n → ℂ) (a b : ℝ) :
    Top d (Top d ψ a) b = Top d ψ (a + b) := by
  funext j
  unfold Top
  rw [fft_ifft]
  unfold ifft
  congr 1
  refine Finset.sum_congr rfl fun k _ => ?_
  congr 1
  dsimp only
  rw [mul_assoc, ← Complex.exp_add]
  congr 1
  push_cast
  ring

/-! ## Run configuration (section 7 of the script) -/

/-- `L = 0.2`: total domain length (nm). -/
noncomputable def L : ℝ := 0.2

/-- `Nx = 1000`: number of spatial points. -/
def Nx : ℕ := 1000

/-- `dx = L / Nx`: the script's "spatial step" variable. -/
noncomputable def dx : ℝ := L / Nx

/-- `Nt = 10000`: total number of time steps. -/
def Nt : ℕ := 10000

/-- `dt = 1e-5`: time step. -/
noncomputable def dt : ℝ := 1e-5

/-- `f = 10`: sampling stride (store every `f` steps). -/
def f : ℕ := 10

/-- `x = np.linspace(-L/2, L/2, Nx)`: the `i`-th point is
`-L/2 + i * (L/2 - (-L/2)) / (Nx - 1)`. -/
noncomputable def x : Fin Nx → ℝ :=
  fun i => -(L / 2) + (i : ℕ) * ((L / 2 - -(L / 2)) / ((Nx : ℝ) - 1))

/-! ## State initializer (`init`) -/

/-- `sigma = 0.005`: width of the initial Gaussian. -/
noncomputable def sigma : ℝ := 0.005

/-- `center = 0.06`: the Gaussian is centered in the right well. -/
noncomputable def center : ℝ := 0.06

/-- The unnormalized initial wavefunction
`psi = np.exp(-((x - center)**2) / (2 * sigma**2))`. -/
noncomputable def psiRaw : Fin Nx → ℝ :=
  fun i => Real.exp (-((x i - center) ^ 2) / (2 * sigma ^ 2))

/-- `norm0 = np.sqrt(np.sum(np.abs(psi)**2) * dx)`. -/
noncomputable def norm0 : ℝ :=
  Real.sqrt ((∑ i : Fin Nx, |psiRaw i| ^ 2) * dx)

/-- The normalized initial wavefunction `psi /= norm0` (real-valued array,
embedded into `ℂ` as the propagators will produce complex values). -/
noncomputable def psiInit : Fin Nx → ℂ :=
  fun i => ((psiRaw i / norm0 : ℝ) : ℂ)

/-- The mutable global state of a run: the three diagnostic history arrays
(`density_prob`, `time_arr`, `norm_arr`, modelled as total maps from the
slot index, `0` standing for the `np.zeros` fill), the current
wavefunction, and the log of history slots written by `runsplit` (in
order). -/
structure RunState where
  density_prob : ℕ → Fin Nx → ℝ
  time_arr : ℕ → ℝ
  norm_arr : ℕ → ℝ
  psi : Fin Nx → ℂ
  writes : List ℕ

/-- `init()`: allocate the zero-filled histories (of size `Nt//f + 1`) and
write slot 0 with the initial density, norm, and time 0 (time slot 0 is
the `np.zeros` fill itself). -/
noncomputable def initState : RunState where
  density_prob := Function.update (fun _ => fun _ => 0) 0 (fun i => Complex.abs (psiInit i) ^ 2)
  time_arr := fun _ => 0
  norm_arr := Function.update (fun _ => 0) 0 (dnorm psiInit dx)
  psi := psiInit
  writes := []

/-! ## Split-step integrator (`runsplit`) -/

/-- One inner iteration of `runsplit`:
`t_current += dt; psi = Top(psi, dt); psi = Vop(psi, x, t_current, dt)`,
on the pair (time accumulator, wavefunction). -/
noncomputable def innerStep {n : ℕ} (d : ℝ) (xg : Fin n → ℝ) (τ : ℝ)
    (p : ℝ × (Fin n → ℂ)) : ℝ × (Fin n → ℂ) :=
  (p.1 + τ, Vop (Top d p.2 τ) xg (p.1 + τ) τ)

/-- One outer iteration of `runsplit` (without the bookkeeping):
`Top(psi, -dt/2)`, then `f` inner iterations, then `Top(psi, dt/2)`;
returns the final time accumulator and wavefunction. -/
noncomputable def outerOnce {n : ℕ} (d : ℝ) (xg : Fin n → ℝ) (τ : ℝ) (fc : ℕ)
    (t : ℝ) (ψ : Fin n → ℂ) : ℝ × (Fin n → ℂ) :=
  let q := (innerStep d xg τ)^[fc] (t, Top d ψ (-τ / 2))
  (q.1, Top d q.2 (τ / 2))

/-- The body of the outer loop of `runsplit` at index `nt`: run one outer
iteration starting from `t_current = time_arr[nt]`, then record
`norm_arr[nt+1]`, `density_prob[nt+1]` and `time_arr[nt+1]`. -/
noncomputable def outerIter (st : RunState) (nt : ℕ) : RunState :=
  let q := outerOnce dx x dt f (st.time_arr nt) st.psi
  { density_prob := Function.update st.density_prob (nt + 1) (fun i => Complex.abs (q.2 i) ^ 2)
    time_arr := Function.update st.time_arr (nt + 1) q.1
    norm_arr := Function.update st.norm_arr (nt + 1) (dnorm q.2 dx)
    psi := q.2
    writes := st.writes ++ [nt + 1] }

/-- `runsplit(psi)`: the outer loop `for nt in range(0, Nt//f)`. -/
noncomputable def runsplit : RunState :=
  (List.range (Nt / f)).foldl outerIter initState

/-- The state reached after `mm` outer iterations. -/
noncomputable def stepsTo : ℕ → RunState
  | 0 => initState
  | k + 1 => outerIter (stepsTo k) k

theorem foldl_range_eq (mm : ℕ) :
    (List.range mm).foldl outerIter initState = stepsTo mm := by
  induction mm with
  | zero => simp [stepsTo]
  | succ k ih =>
      rw [List.range_succ, List.foldl_append, ih]
      simp [stepsTo]

theorem runsplit_eq : runsplit = stepsTo (Nt / f) :=
  foldl_range_eq (Nt / f)

/-- The inner loop advances the time accumulator by `k * dt` after `k`
iterations. -/
theorem innerStep_iter_fst {n : ℕ} (d : ℝ) (xg : Fin n → ℝ) (τ : ℝ) (k : ℕ) :
    ∀ p : ℝ × (Fin n → ℂ), ((innerStep d xg τ)^[k] p).1 = p.1 + k * τ := by
  induction k with
  | zero => intro p; simp
  | succ k ih =>
      intro p
      rw [Function.iterate_succ_apply, ih]
      unfold innerStep
      dsimp
      push_cast
      ring

/-- The inner loop preserves the discrete norm. -/
theorem innerStep_iter_dnorm {n : ℕ} (d : ℝ) (xg : Fin n → ℝ) (τ d' : ℝ) (k : ℕ) :
    ∀ p : ℝ × (Fin n → ℂ), dnorm ((innerStep d xg τ)^[k] p).2 d' = dnorm p.2 d' := by
  induction k with
  | zero => intro p; simp
  | succ k ih =>
      intro p
      rw [Function.iterate_succ_apply, ih]
      unfold innerStep
      dsimp
      rw [vop_dnorm, top_dnorm]

/-- One outer iteration advances the time accumulator by exactly `fc * τ`. -/
theorem outerOnce_fst {n : ℕ} (d : ℝ) (xg : Fin n → ℝ) (τ : ℝ) (fc : ℕ)
    (t : ℝ) (ψ : Fin n → ℂ) : (outerOnce d xg τ fc t ψ).1 = t + fc * τ := by
  unfold outerOnce
  dsimp
  rw [innerStep_iter_fst]

/-- One outer iteration preserves the discrete norm. -/
theorem outerOnce_dnorm {n : ℕ} (d : ℝ) (xg : Fin n → ℝ) (τ d' : ℝ) (fc : ℕ)
    (t : ℝ) (ψ : Fin n → ℂ) : dnorm (outerOnce d xg τ fc t ψ).2 d' = dnorm ψ d' := by
  unfold outerOnce
  dsimp
  rw [top_dnorm, innerStep_iter_dnorm]
  dsimp
  rw [top_dnorm]

/-! ## Initialization facts -/

theorem dx_pos : 0 < dx := by
  unfold dx L Nx
  norm_num

theorem sumSq_psiRaw_pos : 0 < ∑ i : Fin Nx, |psiRaw i| ^ 2 := by
  refine Finset.sum_pos (fun i _ => ?_) ⟨⟨0, by norm_num [Nx]⟩, Finset.mem_univ _⟩
  have h : 0 < psiRaw i := Real.exp_pos _
  exact pow_pos (abs_pos.mpr h.ne') 2

/-- After `init`, the discrete norm of the wavefunction is exactly 1. -/
theorem dnorm_psiInit : dnorm psiInit dx = 1 := by
  have hA : 0 < ∑ i : Fin Nx, |psiRaw i| ^ 2 := sumSq_psiRaw_pos
  have hdx : 0 < dx := dx_pos
  have hS : 0 < (∑ i : Fin Nx, |psiRaw i| ^ 2) * dx := mul_pos hA hdx
  have hnorm0 : norm0 ^ 2 = (∑ i : Fin Nx, |psiRaw i| ^ 2) * dx := by
    unfold norm0
    exact Real.sq_sqrt hS.le
  have hn0 : 0 < norm0 := by
    unfold norm0
    exact Real.sqrt_pos.mpr hS
  unfold dnorm psiInit
  have habs : ∀ i : Fin Nx,
      Complex.abs ((psiRaw i / norm0 : ℝ) : ℂ) ^ 2 = |psiRaw i| ^ 2 / norm0 ^ 2 := by
    intro i
    rw [Complex.abs_ofReal, abs_div, div_pow, abs_of_pos hn0]
  simp only [habs]
  rw [← Finset.sum_div, hnorm0, div_mul_eq_mul_div]
  rw [div_self hS.ne']

/-! ## The run invariant: recorded times, norms, and write order -/

theorem run_invariant (mm : ℕ) :
    (∀ j : ℕ, j ≤ mm → (stepsTo mm).time_arr j = j * ((f : ℝ) * dt)) ∧
    (∀ j : ℕ, mm < j → (stepsTo mm).time_arr j = 0) ∧
    (∀ j : ℕ, j ≤ mm → (stepsTo mm).norm_arr j = 1) ∧
    (∀ j : ℕ, mm < j → (stepsTo mm).norm_arr j = 0) ∧
    dnorm (stepsTo mm).psi dx = 1 ∧
    (stepsTo mm).writes = (List.range mm).map (· + 1) := by
  induction mm with
  | zero =>
      refine ⟨?_, ?_, ?_, ?_, ?_, ?_⟩
      · intro j hj
        interval_cases j
        simp [stepsTo, initState]
      · intro j hj
        simp [stepsTo, initState]
      · intro j hj
        interval_cases j
        simp [stepsTo, initState, dnorm_psiInit]
      · intro j hj
        simp [stepsTo, initState, Function.update_apply]
        omega
      · simpa [stepsTo, initState] using dnorm_psiInit
      · simp [stepsTo, initState]
  | succ k ih =>
      obtain ⟨iht, iht0, ihn, ihn0, ihψ, ihw⟩ := ih
      have hstep : stepsTo (k + 1) = outerIter (stepsTo k) k := rfl
      refine ⟨?_, ?_, ?_, ?_, ?_, ?_⟩
      · intro j hj
        rw [hstep]
        unfold outerIter
        dsimp
        rw [Function.update_apply]
        by_cases hjk : j = k + 1
        · rw [if_pos hjk, outerOnce_fst, iht k le_rfl, hjk]
          push_cast
          ring
        · rw [if_neg hjk]
          exact iht j (by omega)
      · intro j hj
        rw [hstep]
        unfold outerIter
        dsimp
        rw [Function.update_apply, if_neg (by omega)]
        exact iht0 j (by omega)
      · intro j hj
        rw [hstep]
        unfold outerIter
        dsimp
        rw [Function.update_apply]
        by_cases hjk : j = k + 1
        · rw [if_pos hjk, outerOnce_dnorm]
          exact ihψ
        · rw [if_neg hjk]
          exact ihn j (by omega)
      · intro j hj
        rw [hstep]
        unfold outerIter
        dsimp
        rw [Function.update_apply, if_neg (by omega)]
        exact ihn0 j (by omega)
      · rw [hstep]
        unfold outerIter
        dsimp
        rw [outerOnce_dnorm]
        exact ihψ
      · rw [hstep]
        unfold outerIter
        dsimp
        rw [ihw, List.range_succ, List.map_append]
        rfl

/-! ## Potential region analysis -/

/-- Region rule of `V` (any `V0`, any `type` tag): outer wall above `a = 0.07`,
wells on `(0.04, 0.07]`, barrier of height `V0` on `[0, 0.04]`. -/
theorem V_region (xv t v0 : ℝ) (ty : ℕ) :
    (0.07 < |xv| → V xv t v0 ty = 1e6) ∧
    (0.04 < |xv| → |xv| ≤ 0.07 → V xv t v0 ty = 0) ∧
    (|xv| ≤ 0.04 → V xv t v0 ty = v0) := by
  refine ⟨fun h => ?_, fun h1 h2 => ?_, fun h => ?_⟩ <;>
    (unfold V; dsimp only)
  · rw [if_neg (by linarith), if_neg (by rintro ⟨h1, _⟩; linarith), if_pos h]
  · rw [if_neg (by linarith), if_pos ⟨h2, h1⟩]
  · rw [if_pos h]

/-- `V` never reads its time argument. -/
theorem V_t_indep (xv t t' v0 : ℝ) (ty : ℕ) : V xv t v0 ty = V xv t' v0 ty := rfl

/-- `Vop` never reads its reference time (the potential is
time-independent). -/
theorem vop_t_indep {n : ℕ} (ψ : Fin n → ℂ) (xg : Fin n → ℝ) (t t' τ : ℝ) :
    Vop ψ xg t τ = Vop ψ xg t' τ := rfl

/-! ## Strang splitting -/

/-- One step of the textbook second-order Strang sequence
`Top(dt/2); Vop(dt); Top(dt/2)` on (time accumulator, wavefunction),
advancing the accumulator by `dt` (the reference time handed to `Vop` is
irrelevant: the potential is time-independent). -/
noncomputable def strangStep {n : ℕ} (d : ℝ) (xg : Fin n → ℝ) (τ : ℝ)
    (p : ℝ × (Fin n → ℂ)) : ℝ × (Fin n → ℂ) :=
  (p.1 + τ, Top d (Vop (Top d p.2 (τ / 2)) xg (p.1 + τ) τ) (τ / 2))

theorem strang_aux {n : ℕ} (d : ℝ) (xg : Fin n → ℝ) (τ : ℝ) (fc : ℕ) :
    ∀ (t t' : ℝ) (ψ : Fin n → ℂ),
      Top d (((innerStep d xg τ)^[fc]) (t, Top d ψ (-τ / 2))).2 (τ / 2) =
        ((strangStep d xg τ)^[fc] (t', ψ)).2 := by
  induction fc with
  | zero =>
      intro t t' ψ
      simp only [Function.iterate_zero, id_eq]
      rw [top_add, show -τ / 2 + τ / 2 = (0 : ℝ) by ring, top_zero]
  | succ fc ih =>
      intro t t' ψ
      have e1 : Top d (Top d ψ (-τ / 2)) τ = Top d ψ (τ / 2) := by
        rw [top_add, show -τ / 2 + τ = τ / 2 by ring]
      have e2 : Top d (Top d (Vop (Top d ψ (τ / 2)) xg (t + τ) τ) (τ / 2)) (-τ / 2) =
          Vop (Top d ψ (τ / 2)) xg (t + τ) τ := by
        rw [top_add, show τ / 2 + -τ / 2 = (0 : ℝ) by ring, top_zero]
      have h1 : innerStep d xg τ (t, Top d ψ (-τ / 2)) =
          (t + τ, Top d (Top d (Vop (Top d ψ (τ / 2)) xg (t + τ) τ) (τ / 2)) (-τ / 2)) := by
        unfold innerStep
        dsimp
        rw [e1, e2]
      rw [Function.iterate_succ_apply, h1,
        ih (t + τ) (t' + τ) (Top d (Vop (Top d ψ (τ / 2)) xg (t + τ) τ) (τ / 2)),
        Function.iterate_succ_apply]
      rfl

/-! ## The spec claims -/

/-- C3.  Potential region correctness with `b=0.04, a=0.07, V_out=1e6,
V0=0.25`: outer wall `1e6` for `|x| > a`, wells `0` for `b < |x| ≤ a`,
barrier `0.25` for `|x| ≤ b`; `V(0)=0.25`, `V(0.05)=0`, `V(0.08)=1e6`, and
both boundaries fall on the lower-potential side: `V(0.04)=0.25`,
`V(0.07)=0`.  (The embedding applies the same scalar rule pointwise, which
is the vectorized semantics of the masked assignments.) -/
theorem potential_regions :
    (∀ xv t : ℝ, 0.07 < |xv| → V xv t 0.25 6 = 1e6) ∧
    (∀ xv t : ℝ, 0.04 < |xv| → |xv| ≤ 0.07 → V xv t 0.25 6 = 0) ∧
    (∀ xv t : ℝ, |xv| ≤ 0.04 → V xv t 0.25 6 = 0.25) ∧
    (∀ t : ℝ, V 0 t 0.25 6 = 0.25) ∧
    (∀ t : ℝ, V 0.05 t 0.25 6 = 0) ∧
    (∀ t : ℝ, V 0.08 t 0.25 6 = 1e6) ∧
    (∀ t : ℝ, V 0.04 t 0.25 6 = 0.25) ∧
    (∀ t : ℝ, V 0.07 t 0.25 6 = 0) := by
  have h5 : |(0.05 : ℝ)| = 0.05 := abs_of_nonneg (by norm_num)
  have h8 : |(0.08 : ℝ)| = 0.08 := abs_of_nonneg (by norm_num)
  have h4 : |(0.04 : ℝ)| = 0.04 := abs_of_nonneg (by norm_num)
  have h7 : |(0.07 : ℝ)| = 0.07 := abs_of_nonneg (by norm_num)
  have h0 : |(0 : ℝ)| = 0 := abs_of_nonneg le_rfl
  refine ⟨fun xv t h => (V_region xv t 0.25 6).1 h,
    fun xv t h1 h2 => (V_region xv t 0.25 6).2.1 h1 h2,
    fun xv t h => (V_region xv t 0.25 6).2.2 h,
    fun t => (V_region 0 t 0.25 6).2.2 (by rw [h0]; norm_num),
    fun t => (V_region 0.05 t 0.25 6).2.1 (by rw [h5]; norm_num) (by rw [h5]; norm_num),
    fun t => (V_region 0.08 t 0.25 6).1 (by rw [h8]; norm_num),
    fun t => (V_region 0.04 t 0.25 6).2.2 (by rw [h4]),
    fun t => (V_region 0.07 t 0.25 6).2.1 (by rw [h7]; norm_num) (by rw [h7])⟩

/-- Witness for C3 at concrete inputs. -/
theorem potential_regions_witness :
    (0.07 < |(0.08 : ℝ)| ∧ V 0.08 0 0.25 6 = 1e6) ∧
    (0.04 < |(0.05 : ℝ)| ∧ |(0.05 : ℝ)| ≤ 0.07 ∧ V 0.05 0 0.25 6 = 0) ∧
    (|(0.04 : ℝ)| ≤ 0.04 ∧ V 0.04 0 0.25 6 = 0.25) := by
  have h5 : |(0.05 : ℝ)| = 0.05 := abs_of_nonneg (by norm_num)
  have h8 : |(0.08 : ℝ)| = 0.08 := abs_of_nonneg (by norm_num)
  have h4 : |(0.04 : ℝ)| = 0.04 := abs_of_nonneg (by norm_num)
  exact ⟨⟨by rw [h8]; norm_num, potential_regions.1 0.08 0 (by rw [h8]; norm_num)⟩,
    ⟨by rw [h5]; norm_num, by rw [h5]; norm_num,
      potential_regions.2.1 0.05 0 (by rw [h5]; norm_num) (by rw [h5]; norm_num)⟩,
    ⟨by rw [h4], potential_regions.2.2.1 0.04 0 (by rw [h4])⟩⟩

/-- C7.  Kinetic round trip: evolving for `τ` and then `-τ` returns the
input wavefunction, for every real `τ` (positive, zero, or negative). -/
theorem kinetic_round_trip {n : ℕ} (d : ℝ) (ψ : Fin n → ℂ) (τ : ℝ) :
    Top d (Top d ψ τ) (-τ) = ψ := by
  rw [top_add, show τ + -τ = (0 : ℝ) by ring, top_zero]

/-- C8.  Zero-duration propagation is the identity, for both the kinetic
and the potential propagator. -/
theorem zero_duration_identity :
    (∀ (n : ℕ) (d : ℝ) (ψ : Fin n → ℂ), Top d ψ 0 = ψ) ∧
    (∀ (n : ℕ) (ψ : Fin n → ℂ) (xg : Fin n → ℝ) (t : ℝ), Vop ψ xg t 0 = ψ) :=
  ⟨fun _ d ψ => top_zero d ψ, fun _ ψ xg t => vop_zero ψ xg t⟩

/-- C10.  Kinetic semigroup additivity `Top(Top(ψ,a),b) = Top(ψ,a+b)`; in
particular the `-dt/2` un-wind followed by a full `dt` kinetic step acts
as a single `dt/2` half-step. -/
theorem kinetic_semigroup :
    (∀ (n : ℕ) (d : ℝ) (ψ : Fin n → ℂ) (a b : ℝ),
      Top d (Top d ψ a) b = Top d ψ (a + b)) ∧
    (∀ (n : ℕ) (d : ℝ) (ψ : Fin n → ℂ) (τ : ℝ),
      Top d (Top d ψ (-τ / 2)) τ = Top d ψ (τ / 2)) :=
  ⟨fun _ d ψ a b => top_add d ψ a b,
   fun _ d ψ τ => by rw [top_add, show -τ / 2 + τ = τ / 2 by ring]⟩

/-- C2.  One outer iteration of `runsplit` — `Top(-dt/2)`, then `f ≥ 1`
repetitions of `Top(dt); Vop(dt)`, then `Top(dt/2)` — produces the same
wavefunction as `f` repetitions of the standard Strang sequence
`Top(dt/2); Vop(dt); Top(dt/2)` (exact arithmetic, time-independent
potential). -/
theorem strang_equivalence {n : ℕ} (d : ℝ) (xg : Fin n → ℝ) (τ t : ℝ)
    (ψ : Fin n → ℂ) (fc : ℕ) (hf : 1 ≤ fc) :
    (outerOnce d xg τ fc t ψ).2 = ((strangStep d xg τ)^[fc] (t, ψ)).2 := by
  unfold outerOnce
  exact strang_aux d xg τ fc t t ψ

/-- Witness for C2 at a concrete input (`n = 1`, `f = 1`). -/
theorem strang_equivalence_witness :
    1 ≤ 1 ∧
      (outerOnce (1 : ℝ) (fun _ : Fin 1 => 0) 1 1 0 (fun _ => 1)).2 =
        ((strangStep (1 : ℝ) (fun _ : Fin 1 => 0) 1)^[1] (0, fun _ => 1)).2 :=
  ⟨le_rfl, strang_equivalence 1 (fun _ : Fin 1 => 0) 1 0 (fun _ => 1) 1 le_rfl⟩

/-- C1.  Norm preservation: both propagators leave the discrete norm
`sum(|psi|^2)*dx` unchanged for every wavefunction, duration, grid and
reference time (exact arithmetic), and consequently every entry of the
recorded norm history of the configured run stays within `1e-3` of 1. -/
theorem norm_preservation :
    (∀ (n : ℕ) (d : ℝ) (ψ : Fin n → ℂ) (τ d' : ℝ),
      dnorm (Top d ψ τ) d' = dnorm ψ d') ∧
    (∀ (n : ℕ) (ψ : Fin n → ℂ) (xg : Fin n → ℝ) (t τ d' : ℝ),
      dnorm (Vop ψ xg t τ) d' = dnorm ψ d') ∧
    (∀ k : ℕ, k ≤ Nt / f → |runsplit.norm_arr k - 1| ≤ 1e-3) := by
  refine ⟨fun _ d ψ τ d' => top_dnorm d ψ τ d',
    fun _ ψ xg t τ d' => vop_dnorm ψ xg t τ d', fun k hk => ?_⟩
  rw [runsplit_eq, (run_invariant (Nt / f)).2.2.1 k hk]
  norm_num

/-- Witness for C1 at concrete inputs. -/
theorem norm_preservation_witness :
    dnorm (Top 1 (fun _ : Fin 2 => 1) 1) 1 = dnorm (fun _ : Fin 2 => 1) 1 ∧
    (0 ≤ Nt / f ∧ |runsplit.norm_arr 0 - 1| ≤ 1e-3) :=
  ⟨norm_preservation.1 2 1 (fun _ => 1) 1 1,
   Nat.zero_le _, norm_preservation.2.2 0 (Nat.zero_le _)⟩

/-- C4.  Initialization postcondition: the normalized Gaussian has discrete
norm exactly 1 (hence within `1e-9`), and the slot-0 entries of the
history buffers hold the initial density, the initial norm, and time 0. -/
theorem init_postcondition :
    dnorm psiInit dx = 1 ∧
    |dnorm psiInit dx - 1| < 1e-9 ∧
    initState.density_prob 0 = (fun i => Complex.abs (psiInit i) ^ 2) ∧
    initState.norm_arr 0 = dnorm psiInit dx ∧
    initState.time_arr 0 = 0 ∧
    initState.psi = psiInit := by
  refine ⟨dnorm_psiInit, by rw [dnorm_psiInit]; norm_num, ?_, ?_, rfl, rfl⟩
  · simp [initState]
  · simp [initState]

/-- C5 counterexample: the spacing of consecutive grid points of
`np.linspace(-L/2, L/2, Nx)` is `L/999`, which differs from the script's
`dx = L/Nx = L/1000`. -/
theorem grid_spacing_counterexample :
    x ⟨1, by norm_num [Nx]⟩ - x ⟨0, by norm_num [Nx]⟩ ≠ dx := by
  show -(L / 2) + ((1 : ℕ) : ℝ) * ((L / 2 - -(L / 2)) / ((Nx : ℝ) - 1)) -
      (-(L / 2) + ((0 : ℕ) : ℝ) * ((L / 2 - -(L / 2)) / ((Nx : ℝ) - 1))) ≠ dx
  unfold dx L Nx
  push_cast
  norm_num

/-- C5 (amended).  The grid is strictly increasing, uniformly spaced and
symmetric about zero, but the constant spacing is `L/(N-1)`, not the
script's `dx = L/N`. -/
theorem grid_spacing_amended :
    (∀ i j : Fin Nx, i < j → x i < x j) ∧
    (∀ (i : ℕ) (h : i + 1 < Nx),
      x ⟨i + 1, h⟩ - x ⟨i, Nat.lt_of_succ_lt h⟩ = L / ((Nx : ℝ) - 1)) ∧
    (∀ i : Fin Nx, x i + x (Fin.rev i) = 0) ∧
    L / ((Nx : ℝ) - 1) ≠ dx := by
  have hs : 0 < (L / 2 - -(L / 2)) / ((Nx : ℝ) - 1) := by
    unfold L Nx
    norm_num
  refine ⟨?_, ?_, ?_, ?_⟩
  · intro i j hij
    unfold x
    have hij' : ((i : ℕ) : ℝ) < ((j : ℕ) : ℝ) := by
      have : (i : ℕ) < (j : ℕ) := hij
      exact_mod_cast this
    exact add_lt_add_left (mul_lt_mul_of_pos_right hij' hs) _
  · intro i h
    show -(L / 2) + ((i + 1 : ℕ) : ℝ) * ((L / 2 - -(L / 2)) / ((Nx : ℝ) - 1)) -
        (-(L / 2) + ((i : ℕ) : ℝ) * ((L / 2 - -(L / 2)) / ((Nx : ℝ) - 1))) =
        L / ((Nx : ℝ) - 1)
    push_cast
    ring
  · intro i
    have hi : (i : ℕ) + 1 ≤ Nx := i.isLt
    unfold x
    rw [Fin.val_rev, Nat.cast_sub hi]
    unfold Nx L
    push_cast
    field_simp
    ring
  · unfold dx L Nx
    norm_num

/-- Witness for C5 (amended) at concrete indices. -/
theorem grid_spacing_amended_witness :
    ((⟨0, by norm_num [Nx]⟩ : Fin Nx) < ⟨1, by norm_num [Nx]⟩ ∧
      x ⟨0, by norm_num [Nx]⟩ < x ⟨1, by norm_num [Nx]⟩) ∧
    (0 + 1 < Nx ∧
      x ⟨0 + 1, by norm_num [Nx]⟩ - x ⟨0, by norm_num [Nx]⟩ = L / ((Nx : ℝ) - 1)) :=
  ⟨⟨by norm_num [Fin.lt_def], grid_spacing_amended.1 _ _ (by norm_num [Fin.lt_def])⟩,
   ⟨by norm_num [Nx], grid_spacing_amended.2.1 0 (by norm_num [Nx])⟩⟩

/-- C6.  Sampling schedule of `runsplit`: exactly `Nt//f` outer iterations,
buffers of size `Nt//f + 1 = 1001`; the history slots written are
`1, 2, …, Nt//f`, in strictly increasing order, each exactly once (slots
beyond `Nt//f` keep their zero fill), and the recorded time at sample `k`
is `k * f * dt`. -/
theorem sampling_schedule :
    runsplit.writes.length = Nt / f ∧
    Nt / f + 1 = 1001 ∧
    runsplit.writes = (List.range (Nt / f)).map (· + 1) ∧
    List.Pairwise (· < ·) runsplit.writes ∧
    (∀ s : ℕ, s ∈ runsplit.writes ↔ 1 ≤ s ∧ s ≤ Nt / f) ∧
    (∀ s : ℕ, s ∈ runsplit.writes → runsplit.writes.count s = 1) ∧
    (∀ k : ℕ, k ≤ Nt / f → runsplit.time_arr k = k * ((f : ℝ) * dt)) ∧
    (∀ j : ℕ, Nt / f < j → runsplit.time_arr j = 0) := by
  have hw : runsplit.writes = (List.range (Nt / f)).map (· + 1) := by
    rw [runsplit_eq]
    exact (run_invariant (Nt / f)).2.2.2.2.2
  have hpw : List.Pairwise (· < ·) runsplit.writes := by
    rw [hw]
    exact List.Pairwise.map _ (fun a b hab => by omega) (List.pairwise_lt_range (Nt / f))
  refine ⟨?_, by norm_num [Nt, f], hw, hpw, ?_, ?_, ?_, ?_⟩
  · rw [hw]
    simp
  · intro s
    rw [hw]
    simp only [List.mem_map, List.mem_range]
    constructor
    · rintro ⟨a, ha, rfl⟩
      omega
    · rintro ⟨h1, h2⟩
      exact ⟨s - 1, by omega, by omega⟩
  · intro s hs
    have hnd : runsplit.writes.Nodup := hpw.imp (fun h => Nat.ne_of_lt h)
    exact List.count_eq_one_of_mem hnd hs
  · intro k hk
    rw [runsplit_eq]
    exact (run_invariant (Nt / f)).1 k hk
  · intro j hj
    rw [runsplit_eq]
    exact (run_invariant (Nt / f)).2.1 j hj

/-- Witness for C6 at concrete indices. -/
theorem sampling_schedule_witness :
    1 ∈ runsplit.writes ∧ runsplit.writes.count 1 = 1 ∧
    (0 ≤ Nt / f ∧ runsplit.time_arr 0 = ((0 : ℕ) : ℝ) * ((f : ℝ) * dt)) ∧
    (Nt / f < Nt / f + 1 ∧ runsplit.time_arr (Nt / f + 1) = 0) := by
  have hmem : 1 ∈ runsplit.writes :=
    (sampling_schedule.2.2.2.2.1 1).mpr ⟨le_rfl, by norm_num [Nt, f]⟩
  exact ⟨hmem, sampling_schedule.2.2.2.2.2.1 1 hmem,
    ⟨Nat.zero_le _, sampling_schedule.2.2.2.2.2.2.1 0 (Nat.zero_le _)⟩,
    ⟨Nat.lt_succ_self _, sampling_schedule.2.2.2.2.2.2.2 (Nt / f + 1) (Nat.lt_succ_self _)⟩⟩

end Amoniaco
